import Mathlib

/-!
Verification of the Merkle commitment core (blob/merkle.go) of the ddrp
repository: a shallow embedding of the digest algebra, tree builder, sector
proof protocol and wire codecs, together with proofs of the specified
properties.

Byte streams are modelled as `List Nat` (one Nat per byte).  The digest type
`crypto.Hash` (a 32-byte array) is modelled as a 32-element byte list.
`io.Reader` arguments are modelled as the byte list the reader supplies;
`io.ReadFull` on n bytes succeeds exactly when at least n bytes remain, while
a plain greedy `Read` (bytes.Reader semantics) returns whatever is left and
errors only at end of stream.  Fallible operations return `Option`
(`none` = error returned to the caller); Go panics on paths the claims never
exercise are modelled by returning a default value.
-/

set_option maxRecDepth 100000

/-! ## Blake2b-256

Modelled from the spec: the underlying digest function is named by the spec
as Blake2b-256 ("the underlying 32-byte digest function (Blake2b-256)");
its implementation (package ddrp/crypto) is not under src, so it is modelled
here from RFC 7693 (unkeyed, 32-byte digest), validated against the standard
test vectors and against the digest constants recorded in merkle.go. -/

/-- 2^64, the modulus for 64-bit word arithmetic. -/
def w64 : Nat := 18446744073709551616

/-- Addition modulo 2^64. -/
def add64 (a b : Nat) : Nat := (a + b) % w64

/-- Right rotation of a 64-bit word by n bits (for 0 < n < 64 and x < 2^64). -/
def rotr64 (x n : Nat) : Nat := (x >>> n) ||| ((x <<< (64 - n)) % w64)

/-- Little-endian interpretation of a byte list as one natural number. -/
def leNat (bs : List Nat) : Nat := bs.foldr (fun b acc => acc * 256 + b % 256) 0

/-- Word i of a state packed as a little-endian sequence of 64-bit slots. -/
def vget (v i : Nat) : Nat := (v >>> (64 * i)) % w64

/-- Replace word i of a packed state (x below 2^64). -/
def vset (v i x : Nat) : Nat :=
  v % (1 <<< (64 * i)) + (x <<< (64 * i)) + ((v >>> (64 * i + 64)) <<< (64 * i + 64))

/-- The Blake2b initialization vector (RFC 7693), packed. -/
def blakeIV : Nat :=
  leNat (([0x6a09e667f3bcc908, 0xbb67ae8584caa73b, 0x3c6ef372fe94f82b, 0xa54ff53a5f1d36f1,
           0x510e527fade682d1, 0x9b05688c2b3e6c1f, 0x1f83d9abfb41bd6b,
           0x5be0cd19137e2179].map (fun w => (List.range 8).map (fun i => (w >>> (8 * i)) % 256))).flatten)

/-- The Blake2b message schedule (RFC 7693). -/
def blakeSigma : List (List Nat) :=
  [[0,1,2,3,4,5,6,7,8,9,10,11,12,13,14,15],
   [14,10,4,8,9,15,13,6,1,12,0,2,11,7,5,3],
   [11,8,12,0,5,2,15,13,10,14,3,6,7,1,9,4],
   [7,9,3,1,13,12,11,14,2,6,5,10,4,0,15,8],
   [9,0,5,7,2,4,10,15,14,1,11,12,6,8,3,13],
   [2,12,6,10,0,11,8,3,4,13,7,5,15,14,1,9],
   [12,5,1,15,14,13,4,10,0,7,6,3,9,2,8,11],
   [13,11,7,14,12,1,3,9,5,0,15,4,8,6,2,10],
   [6,15,14,9,11,3,0,8,12,2,13,7,1,4,10,5],
   [10,2,8,4,7,6,1,5,15,11,9,14,3,12,13,0]]

/-- The Blake2b G mixing function on the packed 16-word state v. -/
def gMix (v : Nat) (a b c d x y : Nat) : Nat :=
  let va := add64 (add64 (vget v a) (vget v b)) x
  let vd := rotr64 ((vget v d) ^^^ va) 32
  let vc := add64 (vget v c) vd
  let vb := rotr64 ((vget v b) ^^^ vc) 24
  let va2 := add64 (add64 va vb) y
  let vd2 := rotr64 (vd ^^^ va2) 16
  let vc2 := add64 vc vd2
  let vb2 := rotr64 (vb ^^^ vc2) 63
  vset (vset (vset (vset v a va2) b vb2) c vc2) d vd2

/-- One Blake2b round on the packed state v with packed message words m and
schedule row s. -/
def blakeRound (m v : Nat) (s : List Nat) : Nat :=
  let v1 := gMix v 0 4 8 12 (vget m (s.getD 0 0)) (vget m (s.getD 1 0))
  let v2 := gMix v1 1 5 9 13 (vget m (s.getD 2 0)) (vget m (s.getD 3 0))
  let v3 := gMix v2 2 6 10 14 (vget m (s.getD 4 0)) (vget m (s.getD 5 0))
  let v4 := gMix v3 3 7 11 15 (vget m (s.getD 6 0)) (vget m (s.getD 7 0))
  let v5 := gMix v4 0 5 10 15 (vget m (s.getD 8 0)) (vget m (s.getD 9 0))
  let v6 := gMix v5 1 6 11 12 (vget m (s.getD 10 0)) (vget m (s.getD 11 0))
  let v7 := gMix v6 2 7 8 13 (vget m (s.getD 12 0)) (vget m (s.getD 13 0))
  gMix v7 3 4 9 14 (vget m (s.getD 14 0)) (vget m (s.getD 15 0))

/-- The Blake2b compression function F (RFC 7693): state h (8 packed words),
message block m (16 packed words), byte counter t, final-block flag f. -/
def blake2bCompress (h m t : Nat) (f : Bool) : Nat :=
  let v0 := h % (1 <<< 512) + (blakeIV <<< 512)
  let v1 := vset v0 12 ((vget v0 12) ^^^ (t % w64))
  let v2 := vset v1 13 ((vget v1 13) ^^^ ((t / w64) % w64))
  let v3 := if f then vset v2 14 ((vget v2 14) ^^^ (w64 - 1)) else v2
  let vf := (List.range 12).foldl (fun v i => blakeRound m v (blakeSigma.getD (i % 10) [])) v3
  (List.range 8).foldr (fun i acc => ((vget h i ^^^ vget vf i) ^^^ vget vf (i + 8)) + (acc <<< 64)) 0

/-- Pad a partial block with zero bytes up to 128 bytes. -/
def padBlock (b : List Nat) : List Nat := b ++ List.replicate (128 - b.length) 0

/-- The first n chunks of sz bytes each of a byte stream (structural in n). -/
def chunksOf (sz : Nat) : Nat → List Nat → List (List Nat)
  | 0, _ => []
  | n+1, s => (s.take sz) :: chunksOf sz n (s.drop sz)

/-- Split a message into its ceil(len/128) many 128-byte blocks (the last
one possibly short). -/
def chunk128 (s : List Nat) : List (List Nat) := chunksOf 128 ((s.length + 127) / 128) s

/-- Process the message blocks: every non-final block is compressed with the
running byte counter, the final block is padded and compressed with the total
length and the final flag set. -/
def blakeProcess (h : Nat) (blocks : List (List Nat)) (compressed total : Nat) : Nat :=
  match blocks with
  | [] => h
  | [b] => blake2bCompress h (leNat (padBlock b)) total true
  | b :: rest => blakeProcess (blake2bCompress h (leNat b) (compressed + 128) false) rest (compressed + 128) total

/-- Blake2b-256 of a byte sequence: unkeyed, digest length 32 (RFC 7693).
This models ddrp/crypto.Blake2B256 applied to the concatenation of its
variadic arguments. -/
def blake2b256 (msg : List Nat) : List Nat :=
  let h0 := blakeIV ^^^ 0x01010020
  let blocks := if msg.length = 0 then [List.replicate 128 0] else chunk128 msg
  let hf := blakeProcess h0 blocks 0 msg.length
  (List.range 32).map (fun i => (hf >>> (8 * i)) % 256)

/-! ## Digest algebra (merkle.go) -/

/-- Model of crypto.Hash: a 32-byte digest as a byte list. -/
abbrev Hash := List Nat

/-- The zero value of crypto.Hash (32 zero bytes). -/
def zeroHash : Hash := List.replicate 32 0

/-- SubsectorSize from merkle.go. -/
def SubsectorSize : Nat := 4096

/-- MerkleTreeHeight from merkle.go. -/
def MerkleTreeHeight : Nat := 8

/-- SubsectorProofLevel from merkle.go. -/
def SubsectorProofLevel : Nat := 8

/-- Model of the package-level zero4kSector variable: 4096 zero bytes. -/
def zero4kSector : List Nat := List.replicate 4096 0

/-- The precomputed self-pairing table from merkle.go, in source order:
each key is an all-zero-subtree root and its value that root paired with
itself. -/
def precomputes : List (Hash × Hash) :=
 [([0x68, 0x6e, 0xde, 0x92, 0x88, 0xc3, 0x91, 0xe7, 0xe0, 0x50, 0x26, 0xe5, 0x6f, 0x2f, 0x91, 0xbf, 0xd8, 0x79, 0x98, 0x7a, 0x04, 0x0e, 0xa9, 0x84, 0x45, 0xda, 0xbc, 0x76, 0xf5, 0x5b, 0x8e, 0x5f],
   [0x49, 0xe4, 0xb8, 0x0d, 0x5b, 0x7d, 0x8d, 0x93, 0x22, 0x48, 0x25, 0xf2, 0x6c, 0x45, 0x98, 0x7e, 0x10, 0x7b, 0xbf, 0x2f, 0x87, 0x1d, 0x4e, 0x56, 0x36, 0xac, 0x55, 0x0f, 0xf1, 0x25, 0xe0, 0x82]),
  ([0x49, 0xe4, 0xb8, 0x0d, 0x5b, 0x7d, 0x8d, 0x93, 0x22, 0x48, 0x25, 0xf2, 0x6c, 0x45, 0x98, 0x7e, 0x10, 0x7b, 0xbf, 0x2f, 0x87, 0x1d, 0x4e, 0x56, 0x36, 0xac, 0x55, 0x0f, 0xf1, 0x25, 0xe0, 0x82],
   [0xb7, 0x95, 0x51, 0x37, 0x10, 0x7e, 0x8c, 0x87, 0x98, 0x94, 0xa9, 0x47, 0xa2, 0x35, 0xec, 0xd2, 0xa4, 0x22, 0x5a, 0x6c, 0x82, 0x12, 0x97, 0x6e, 0x97, 0x6c, 0x50, 0x31, 0x9b, 0x59, 0x31, 0xb3]),
  ([0xb7, 0x95, 0x51, 0x37, 0x10, 0x7e, 0x8c, 0x87, 0x98, 0x94, 0xa9, 0x47, 0xa2, 0x35, 0xec, 0xd2, 0xa4, 0x22, 0x5a, 0x6c, 0x82, 0x12, 0x97, 0x6e, 0x97, 0x6c, 0x50, 0x31, 0x9b, 0x59, 0x31, 0xb3],
   [0x47, 0x19, 0x5c, 0x0c, 0xa9, 0x4e, 0x02, 0x20, 0xcd, 0x01, 0xbe, 0x88, 0x32, 0x00, 0xfd, 0xbf, 0x71, 0x48, 0x13, 0x64, 0x94, 0x2b, 0xa1, 0xe8, 0xd3, 0xef, 0x4c, 0x9a, 0x3d, 0xc4, 0xb6, 0xa5]),
  ([0x47, 0x19, 0x5c, 0x0c, 0xa9, 0x4e, 0x02, 0x20, 0xcd, 0x01, 0xbe, 0x88, 0x32, 0x00, 0xfd, 0xbf, 0x71, 0x48, 0x13, 0x64, 0x94, 0x2b, 0xa1, 0xe8, 0xd3, 0xef, 0x4c, 0x9a, 0x3d, 0xc4, 0xb6, 0xa5],
   [0x53, 0x2a, 0x12, 0xf0, 0x9f, 0xeb, 0xf8, 0x52, 0x14, 0x19, 0x95, 0x99, 0x73, 0xad, 0x53, 0x46, 0x94, 0x4c, 0x2b, 0x22, 0xbf, 0x76, 0x4d, 0x0e, 0x1a, 0x34, 0x25, 0x5b, 0x65, 0x64, 0xfe, 0x4b]),
  ([0x53, 0x2a, 0x12, 0xf0, 0x9f, 0xeb, 0xf8, 0x52, 0x14, 0x19, 0x95, 0x99, 0x73, 0xad, 0x53, 0x46, 0x94, 0x4c, 0x2b, 0x22, 0xbf, 0x76, 0x4d, 0x0e, 0x1a, 0x34, 0x25, 0x5b, 0x65, 0x64, 0xfe, 0x4b],
   [0xff, 0xe2, 0xcf, 0x7e, 0xcd, 0x1b, 0x99, 0x32, 0x35, 0x74, 0x6b, 0xe2, 0x1e, 0x91, 0xc8, 0xe6, 0x1a, 0x1e, 0x22, 0xda, 0xce, 0x98, 0x50, 0x91, 0x25, 0x85, 0x41, 0x65, 0x01, 0xe9, 0x84, 0x47]),
  ([0xff, 0xe2, 0xcf, 0x7e, 0xcd, 0x1b, 0x99, 0x32, 0x35, 0x74, 0x6b, 0xe2, 0x1e, 0x91, 0xc8, 0xe6, 0x1a, 0x1e, 0x22, 0xda, 0xce, 0x98, 0x50, 0x91, 0x25, 0x85, 0x41, 0x65, 0x01, 0xe9, 0x84, 0x47],
   [0x60, 0x52, 0x2e, 0x01, 0x34, 0x1f, 0xe9, 0x62, 0x54, 0x66, 0x8b, 0xa1, 0xbc, 0x2c, 0x79, 0xdd, 0x6f, 0xc6, 0x6b, 0x37, 0x84, 0xc2, 0xeb, 0x39, 0xd4, 0xf0, 0x73, 0x19, 0xc6, 0x23, 0x26, 0x57]),
  ([0x60, 0x52, 0x2e, 0x01, 0x34, 0x1f, 0xe9, 0x62, 0x54, 0x66, 0x8b, 0xa1, 0xbc, 0x2c, 0x79, 0xdd, 0x6f, 0xc6, 0x6b, 0x37, 0x84, 0xc2, 0xeb, 0x39, 0xd4, 0xf0, 0x73, 0x19, 0xc6, 0x23, 0x26, 0x57],
   [0xae, 0x01, 0x82, 0xab, 0x78, 0x03, 0xfc, 0x44, 0xd0, 0x85, 0xc1, 0xc7, 0x34, 0xa5, 0x52, 0xff, 0xfd, 0xb0, 0xf7, 0x44, 0x17, 0x9f, 0x0d, 0x95, 0xbd, 0x60, 0xdd, 0x6f, 0x8f, 0x18, 0x18, 0xaf]),
  ([0xae, 0x01, 0x82, 0xab, 0x78, 0x03, 0xfc, 0x44, 0xd0, 0x85, 0xc1, 0xc7, 0x34, 0xa5, 0x52, 0xff, 0xfd, 0xb0, 0xf7, 0x44, 0x17, 0x9f, 0x0d, 0x95, 0xbd, 0x60, 0xdd, 0x6f, 0x8f, 0x18, 0x18, 0xaf],
   [0xf3, 0x4c, 0x7d, 0x70, 0xb6, 0x52, 0xeb, 0xa4, 0x8e, 0x02, 0xb4, 0x71, 0x7e, 0x1f, 0x0a, 0x2b, 0xe9, 0x33, 0x7b, 0x07, 0x51, 0xcc, 0xf7, 0xbf, 0x36, 0x44, 0x67, 0x4c, 0xbe, 0x64, 0x23, 0xd5]),
  ([0xf3, 0x4c, 0x7d, 0x70, 0xb6, 0x52, 0xeb, 0xa4, 0x8e, 0x02, 0xb4, 0x71, 0x7e, 0x1f, 0x0a, 0x2b, 0xe9, 0x33, 0x7b, 0x07, 0x51, 0xcc, 0xf7, 0xbf, 0x36, 0x44, 0x67, 0x4c, 0xbe, 0x64, 0x23, 0xd5],
   [0x32, 0x00, 0xb9, 0x9b, 0xfc, 0xd8, 0x2c, 0x64, 0xc8, 0x18, 0xb1, 0xa2, 0xb2, 0x6e, 0x14, 0xbf, 0x78, 0x4f, 0xe9, 0x18, 0x8a, 0x55, 0x9b, 0x6b, 0x38, 0xa6, 0xdd, 0xa4, 0xfb, 0x55, 0x31, 0x47]),
  ([0x32, 0x00, 0xb9, 0x9b, 0xfc, 0xd8, 0x2c, 0x64, 0xc8, 0x18, 0xb1, 0xa2, 0xb2, 0x6e, 0x14, 0xbf, 0x78, 0x4f, 0xe9, 0x18, 0x8a, 0x55, 0x9b, 0x6b, 0x38, 0xa6, 0xdd, 0xa4, 0xfb, 0x55, 0x31, 0x47],
   [0xb8, 0x6b, 0xe3, 0xa8, 0xb2, 0x88, 0xb0, 0xef, 0x0b, 0x7e, 0xe5, 0xa9, 0x85, 0x2d, 0x11, 0x81, 0x67, 0xa5, 0x0c, 0x84, 0x71, 0xbf, 0xb9, 0xfb, 0x8f, 0x0c, 0x79, 0x92, 0xf4, 0x52, 0xc7, 0x9c]),
  ([0xb8, 0x6b, 0xe3, 0xa8, 0xb2, 0x88, 0xb0, 0xef, 0x0b, 0x7e, 0xe5, 0xa9, 0x85, 0x2d, 0x11, 0x81, 0x67, 0xa5, 0x0c, 0x84, 0x71, 0xbf, 0xb9, 0xfb, 0x8f, 0x0c, 0x79, 0x92, 0xf4, 0x52, 0xc7, 0x9c],
   [0xaa, 0xbd, 0xcb, 0xb2, 0x3b, 0xfc, 0xea, 0xfe, 0x71, 0xf3, 0x83, 0x4a, 0x17, 0xec, 0x1d, 0x24, 0xbd, 0x4e, 0xf2, 0xda, 0xed, 0x68, 0xd2, 0xcc, 0xc3, 0xc2, 0x98, 0x9f, 0xd0, 0x92, 0xe3, 0x53]),
  ([0xaa, 0xbd, 0xcb, 0xb2, 0x3b, 0xfc, 0xea, 0xfe, 0x71, 0xf3, 0x83, 0x4a, 0x17, 0xec, 0x1d, 0x24, 0xbd, 0x4e, 0xf2, 0xda, 0xed, 0x68, 0xd2, 0xcc, 0xc3, 0xc2, 0x98, 0x9f, 0xd0, 0x92, 0xe3, 0x53],
   [0x7d, 0x1e, 0x84, 0xe6, 0x2d, 0x7e, 0xc9, 0xf6, 0xbc, 0x3f, 0x88, 0x66, 0x75, 0x73, 0x3d, 0xa0, 0x6d, 0xaf, 0x02, 0x77, 0xad, 0x8f, 0xfc, 0xf7, 0xc5, 0x39, 0x93, 0x8c, 0xa5, 0xee, 0x9c, 0xf2])]

/-- The zero4kSectorHash constant from merkle.go. -/
def zero4kSectorHash : Hash := [0x68, 0x6e, 0xde, 0x92, 0x88, 0xc3, 0x91, 0xe7, 0xe0, 0x50, 0x26, 0xe5, 0x6f, 0x2f, 0x91, 0xbf, 0xd8, 0x79, 0x98, 0x7a, 0x04, 0x0e, 0xa9, 0x84, 0x45, 0xda, 0xbc, 0x76, 0xf5, 0x5b, 0x8e, 0x5f]

/-- The EmptyBlobMerkleRoot constant from merkle.go. -/
def EmptyBlobMerkleRoot : Hash := [0x7d, 0x1e, 0x84, 0xe6, 0x2d, 0x7e, 0xc9, 0xf6, 0xbc, 0x3f, 0x88, 0x66, 0x75, 0x73, 0x3d, 0xa0, 0x6d, 0xaf, 0x02, 0x77, 0xad, 0x8f, 0xfc, 0xf7, 0xc5, 0x39, 0x93, 0x8c, 0xa5, 0xee, 0x9c, 0xf2]

/-- The EmptyBlobBaseHash constant from merkle.go. -/
def EmptyBlobBaseHash : Hash := [0x53, 0x2a, 0x12, 0xf0, 0x9f, 0xeb, 0xf8, 0x52, 0x14, 0x19, 0x95, 0x99, 0x73, 0xad, 0x53, 0x46, 0x94, 0x4c, 0x2b, 0x22, 0xbf, 0x76, 0x4d, 0x0e, 0x1a, 0x34, 0x25, 0x5b, 0x65, 0x64, 0xfe, 0x4b]

/-- Lookup in the precompute table (Go map indexing with a Hash key; keys in
the table are distinct, so ordered first-match lookup models it exactly). -/
def mapLookup (k : Hash) : List (Hash × Hash) → Option Hash
  | [] => none
  | p :: rest => if k = p.1 then some p.2 else mapLookup k rest

/-- hashLeaf from merkle.go: the all-zero 4096-byte block takes the
precomputed constant, everything else is hashed. -/
def hashLeaf (input : List Nat) : Hash :=
  if input = zero4kSector then zero4kSectorHash else blake2b256 input

/-- hashLevel from merkle.go: a key of the precompute table paired with
itself takes the table value, everything else hashes the concatenation. -/
def hashLevel (left right : Hash) : Hash :=
  match mapLookup left precomputes with
  | some v => if left = right then v else blake2b256 (left ++ right)
  | none => blake2b256 (left ++ right)

/-- Iterated self-pairing of a digest with hashLevel; chainFrom zero4kSectorHash
walks the roots of ever-deeper all-zero subtrees. -/
def chainFrom (v : Hash) : Nat → Hash
  | 0 => v
  | n+1 => hashLevel (chainFrom v n) (chainFrom v n)

/-- The root of the all-zero subtree with 2^n leaves of 4096 zero bytes. -/
def zeroChain (n : Nat) : Hash := chainFrom zero4kSectorHash n

/-! ## MerkleBase (merkle.go) -/

/-- MerkleBase.Encode: the 256 digests concatenated, no framing. -/
def MerkleBase.Encode (m : List Hash) : List Nat := m.flatten

/-- Model of a bytes.Reader-style greedy Read into an n-byte buffer: returns
up to n bytes and fails only when the stream is already empty (io.EOF). -/
def byteReaderRead (n : Nat) (s : List Nat) : Option (List Nat × List Nat) :=
  if s.isEmpty then none else some (s.take n, s.drop n)

/-- The read loop of MerkleBase.Decode: 256 iterations of r.Read(hash);
the 32-byte buffer is reused across iterations, so a short greedy read
leaves stale bytes from the previous iteration in its tail. -/
def merkleBaseDecodeLoop : Nat → List Nat → List Nat → List Hash → Option (List Hash)
  | 0, _, _, acc => some acc.reverse
  | k+1, hashBuf, s, acc =>
    match byteReaderRead 32 s with
    | none => none
    | some (chunk, rest) =>
      merkleBaseDecodeLoop k (chunk ++ hashBuf.drop chunk.length) rest
        ((chunk ++ hashBuf.drop chunk.length) :: acc)

/-- MerkleBase.Decode from merkle.go, with the input io.Reader modelled as the
byte list it supplies (greedy bytes.Reader semantics for its Read method). -/
def MerkleBase.Decode (s : List Nat) : Option (List Hash) :=
  merkleBaseDecodeLoop 256 zeroHash s []

/-- MerkleBase.DiffWith from merkle.go: nil when equal, else every position
whose digests differ, in increasing order. -/
def MerkleBase.DiffWith (m other : List Hash) : List Nat :=
  if m = other then []
  else (List.range 256).filter (fun i => !(m.getD i zeroHash == other.getD i zeroHash))

/-! ## Tree builder (merkle.go) -/

/-- A MerkleTree: the list of levels, level 0 the root, the last level the
leaves. -/
abbrev MerkleTree := List (List Hash)

/-- One bottom-up halving step: hash consecutive pairs of a level. -/
def hashLevelPairs : List Hash → List Hash
  | [] => []
  | [_] => []
  | a :: b :: rest => hashLevel a b :: hashLevelPairs rest

/-- The grow loop of newMerkleTreeFromHashedLeaves, structural in a fuel
argument so that it evaluates by kernel reduction; the fuel only needs to
exceed the number of halvings, and buildLevels passes the level length. -/
def buildLevelsAux : Nat → List Hash → List (List Hash)
  | 0, top => [top]
  | fuel+1, top =>
    if top.length ≤ 1 then [top] else buildLevelsAux fuel (hashLevelPairs top) ++ [top]

/-- Repeatedly halve a leaf level with hashLevel until one digest remains,
collecting the levels root-first (the loop of newMerkleTreeFromHashedLeaves). -/
def buildLevels (top : List Hash) : List (List Hash) := buildLevelsAux top.length top

/-- Count of one bits (bits.OnesCount64), structural in a fuel argument. -/
def onesCountAux : Nat → Nat → Nat
  | 0, _ => 0
  | fuel+1, n => if n = 0 then 0 else n % 2 + onesCountAux fuel (n / 2)

/-- Count of one bits of a natural number (bits.OnesCount64 on values below
2^64). -/
def onesCount (n : Nat) : Nat := onesCountAux n n

/-- newMerkleTreeFromHashedLeaves from merkle.go: requires a power-of-two
leaf count, then grows the levels bottom-up. -/
def newMerkleTreeFromHashedLeaves (base : List Hash) : Option MerkleTree :=
  if onesCount base.length ≠ 1 then none else some (buildLevels base)

/-- The leaf-reading loop of NewMerkleTreeFromReader: leafCount io.ReadFull
calls of leafSize bytes each, hashing each block with hashLeaf; ReadFull
fails when fewer than leafSize bytes remain. -/
def readLeaves : Nat → Nat → List Nat → Option (List Hash)
  | 0, _, _ => some []
  | n+1, sz, s =>
    if s.length < sz then none
    else
      match readLeaves n sz (s.drop sz) with
      | none => none
      | some hs => some (hashLeaf (s.take sz) :: hs)

/-- NewMerkleTreeFromReader from merkle.go, the reader modelled as the byte
list it supplies. -/
def NewMerkleTreeFromReader (s : List Nat) (leafCount leafSize : Nat) : Option MerkleTree :=
  if 4294967295 < leafCount then none
  else if onesCount leafCount ≠ 1 then none
  else
    match readLeaves leafCount leafSize s with
    | none => none
    | some base => newMerkleTreeFromHashedLeaves base

/-- Modelled from the spec: the blob size constant Size lives outside this
core (the spec excludes "blob/sector size constants" and fixes them only
through sections 3, 6 and 9: subsectors of 4096 bytes, a 256-entry base whose
entries are per-sector hashes, and sectors of 256 subsectors each), giving a
blob of 256 sectors of 256 subsectors: 2^28 bytes. -/
def Size : Nat := 268435456

/-- Modelled from the spec: SectorLen / SubsectorSize with the sector byte
length of section 9 ("sector byte length must equal subsector size times the
base width, here 256"). -/
def SubsectorCountSector : Nat := 256

/-- SubsectorCountBlob = Size / SubsectorSize. -/
def SubsectorCountBlob : Nat := Size / SubsectorSize

/-- The full tree of a byte sequence chunked into leafCount subsectors. -/
def MerkleizeWith (leafCount : Nat) (s : List Nat) : Option MerkleTree :=
  NewMerkleTreeFromReader s leafCount SubsectorSize

/-- Merkleize from merkle.go: the full-blob tree. -/
def Merkleize (s : List Nat) : Option MerkleTree :=
  MerkleizeWith SubsectorCountBlob s

/-- MerkleTree.Root from merkle.go: the single digest of level 0 (the Go
code indexes t[0][0]; the out-of-range panic is never reachable from the
claims, which all supply nonempty trees). -/
def MerkleTree.Root (t : MerkleTree) : Hash := (t.getD 0 []).getD 0 zeroHash

/-- MerkleTree.Level from merkle.go (the Go copy of the level is the level
itself under value semantics). -/
def MerkleTree.Level (t : MerkleTree) (i : Nat) : List Hash := t.getD i []

/-- MerkleTree.ProtocolBase from merkle.go: level 8 as the exchanged base
(the panic when that level is not 256 wide is unreachable from the claims,
which all require height at least 8). -/
def MerkleTree.ProtocolBase (t : MerkleTree) : List Hash := MerkleTree.Level t 8

/-- MerkleTree.Height from merkle.go: number of levels minus one. -/
def MerkleTree.Height (t : MerkleTree) : Nat := t.length - 1

/-- HashSector from merkle.go: the root of the tree over one sector's
subsectors (the panic on a construction error is modelled by the zero
digest; it is unreachable for full-length sectors). -/
def HashSectorWith (subsectorCount : Nat) (sector : List Nat) : Hash :=
  match NewMerkleTreeFromReader sector subsectorCount SubsectorSize with
  | some t => MerkleTree.Root t
  | none => zeroHash

/-- HashSector at the spec-modelled sector size of 256 subsectors. -/
def HashSector (sector : List Nat) : Hash :=
  HashSectorWith SubsectorCountSector sector

/-- MakeTreeFromBase from merkle.go (the panic is unreachable: a base always
has the power-of-two length 256). -/
def MakeTreeFromBase (base : List Hash) : MerkleTree :=
  match newMerkleTreeFromHashedLeaves base with
  | some t => t
  | none => []

/-! ## Sector proofs (merkle.go) -/

/-- The proof-collection loop of MakeSectorProof, walking levels
i = SubsectorProofLevel down to 1 and taking the sibling at each level. -/
def MakeSectorProofAux (tree : MerkleTree) : Nat → Nat → List Hash
  | 0, _ => []
  | i+1, pos =>
    (if pos % 2 = 0 then (tree.getD (i+1) []).getD (pos+1) zeroHash
     else (tree.getD (i+1) []).getD (pos-1) zeroHash) :: MakeSectorProofAux tree i (pos / 2)

/-- MakeSectorProof from merkle.go; the proof is modelled as its list of 8
sibling digests (its wire form is their concatenation) and the uint8
sectorID as a Nat reduced mod 256. -/
def MakeSectorProof (tree : MerkleTree) (sectorID : Nat) : List Hash :=
  MakeSectorProofAux tree SubsectorProofLevel (sectorID % 256)

/-- The climb loop of VerifySectorProof: combine with each proof digest on
the side selected by the position parity, then halve the position; a missing
proof entry (short read) yields none, which VerifySectorProof turns into
false. -/
def VerifySectorProofAux : Hash → Nat → List Hash → Nat → Option Hash
  | h, _, _, 0 => some h
  | _, _, [], _+1 => none
  | h, pos, p :: rest, k+1 =>
    VerifySectorProofAux (if pos % 2 = 0 then hashLevel h p else hashLevel p h) (pos / 2) rest k

/-- VerifySectorProof from merkle.go. -/
def VerifySectorProof (sector : List Nat) (sectorID : Nat) (merkleRoot : Hash) (proof : List Hash) : Bool :=
  match VerifySectorProofAux (HashSector sector) (sectorID % 256) proof MerkleTreeHeight with
  | some h => h == merkleRoot
  | none => false

/-! ## Tree wire codec (merkle.go) -/

/-- MerkleTree.Encode from merkle.go: one height byte (uint8 cast), then the
levels leaves-first, each level left to right, each digest as its 32 bytes. -/
def MerkleTree.Encode (t : MerkleTree) : List Nat :=
  ((t.length - 1) % 256) :: (t.reverse.map (fun lv => lv.flatten)).flatten

/-- Modelled from the spec: crypto.Hash.Decode (not under src) reads exactly
the 32 bytes of one digest, failing on a shorter stream ("truncated wire
input ... returned to the caller as recoverable failures"). -/
def readHash (s : List Nat) : Option (Hash × List Nat) :=
  if s.length < 32 then none else some (s.take 32, s.drop 32)

/-- Read n digests from the stream. -/
def readLevel : Nat → List Nat → Option (List Hash × List Nat)
  | 0, s => some ([], s)
  | n+1, s =>
    match readHash s with
    | none => none
    | some (h, r) =>
      match readLevel n r with
      | none => none
      | some (hs, r2) => some (h :: hs, r2)

/-- The level-reading loop of MerkleTree.Decode: reads levels of 2^h, then
2^(h-1), ... then 1 digests, prepending each, so the result is root-first. -/
def decodeLevels : Nat → List Nat → Option (MerkleTree × List Nat)
  | 0, s =>
    match readLevel 1 s with
    | none => none
    | some (lv, r) => some ([lv], r)
  | h+1, s =>
    match readLevel (2^(h+1)) s with
    | none => none
    | some (lv, r) =>
      match decodeLevels h r with
      | none => none
      | some (tr, r2) => some (tr ++ [lv], r2)

/-- MerkleTree.Decode from merkle.go: one height byte (rejected above 32),
then the levels leaves-first; returns the decoded tree and the unread rest. -/
def MerkleTree.Decode (s : List Nat) : Option (MerkleTree × List Nat) :=
  match s with
  | [] => none
  | hb :: rest => if 32 < hb then none else decodeLevels hb rest

/-- The 32-block Blake2b compression chain for the all-zero 4096-byte
message, evaluated by kernel reduction on the packed state. -/
theorem blakeProcess_zero4k :
    blakeProcess (blakeIV ^^^ 0x01010020) (List.replicate 32 (List.replicate 128 0)) 0 4096
      = 12556795333140217927530685602034765345122893476557583278411305188921493375002335939053571230516922834240394554477591388233937881135445594613297216340520552 := by decide

/-- Equal-length chunking of a replicate list gives replicated chunks. -/
theorem chunksOf_replicate (sz x : Nat) :
    ∀ n : Nat, chunksOf sz n (List.replicate (n * sz) x) = List.replicate n (List.replicate sz x) := by
  intro n
  induction n with
  | zero => rfl
  | succ k ih =>
    have hmul : (k + 1) * sz = sz + k * sz := by ring
    have hmin : sz ⊓ (sz + k * sz) = sz := by omega
    have hsub : sz + k * sz - sz = k * sz := by omega
    simp only [chunksOf, hmul, List.take_replicate, List.drop_replicate, hmin, hsub, ih]
    rfl

set_option maxHeartbeats 2000000 in
/-- Blake2b-256 of the all-zero 4096-byte block equals the zero4kSectorHash
constant of merkle.go. -/
theorem zero4k_blake : blake2b256 (List.replicate 4096 0) = zero4kSectorHash := by
  unfold blake2b256 chunk128
  rw [List.length_replicate]
  norm_num
  have h1 : List.replicate 4096 (0 : Nat) = List.replicate (32 * 128) 0 := by norm_num
  rw [h1, chunksOf_replicate, blakeProcess_zero4k]
  decide

/-! ## Digest algebra lemmas -/

set_option maxHeartbeats 4000000 in
/-- Every entry of the precompute table maps its key k to Blake2b-256 of
k paired with itself (12 Blake2b evaluations by kernel reduction). -/
theorem precomputes_all_blake :
    (precomputes.all (fun p => p.2 == blake2b256 (p.1 ++ p.1))) = true := by decide

/-- A successful table lookup returns a value paired with the key somewhere
in the table. -/
theorem mapLookup_mem : ∀ (l : List (Hash × Hash)) (k v : Hash),
    mapLookup k l = some v → (k, v) ∈ l := by
  intro l
  induction l with
  | nil => intro k v h; simp [mapLookup] at h
  | cons p rest ih =>
    intro k v h
    unfold mapLookup at h
    by_cases hk : k = p.1
    · rw [if_pos hk] at h
      cases h
      have hkp : (k, p.2) = p := by rw [hk]
      rw [hkp]
      exact List.mem_cons_self p rest
    · rw [if_neg hk] at h
      right
      exact ih k v h

/-- Every precompute entry's value is the Blake2b-256 digest of its key
self-paired. -/
theorem precomputes_entry_blake {k v : Hash} (h : (k, v) ∈ precomputes) :
    v = blake2b256 (k ++ k) := by
  have hall := precomputes_all_blake
  rw [List.all_eq_true] at hall
  have := hall (k, v) h
  exact eq_of_beq this

/-- hashLevel agrees with Blake2b-256 of the concatenation on all inputs:
the precompute branch is a transparent cache. -/
theorem hashLevel_blake (left right : Hash) :
    hashLevel left right = blake2b256 (left ++ right) := by
  unfold hashLevel
  cases hm : mapLookup left precomputes with
  | none => rfl
  | some v =>
    show (if left = right then v else blake2b256 (left ++ right)) = blake2b256 (left ++ right)
    by_cases hlr : left = right
    · rw [if_pos hlr]
      have hv := precomputes_entry_blake (mapLookup_mem _ _ _ hm)
      rw [hv, hlr]
    · rw [if_neg hlr]

/-- hashLeaf agrees with Blake2b-256 on all inputs: the all-zero branch is a
transparent cache. -/
theorem hashLeaf_blake (input : List Nat) : hashLeaf input = blake2b256 input := by
  unfold hashLeaf
  by_cases h : input = zero4kSector
  · rw [if_pos h, h]
    exact zero4k_blake.symm
  · rw [if_neg h]

/-- hashLeaf of the all-zero 4096-byte block is the precomputed constant. -/
theorem hashLeaf_zero : hashLeaf (List.replicate 4096 0) = zero4kSectorHash := by
  unfold hashLeaf zero4kSector
  rw [if_pos rfl]

/-! ## onesCount lemmas -/

/-- onesCountAux of zero is zero at any fuel. -/
theorem onesCountAux_zero : ∀ fuel, onesCountAux fuel 0 = 0 := by
  intro fuel
  cases fuel with
  | zero => rfl
  | succ f => simp [onesCountAux]

/-- onesCountAux is fuel-independent once the fuel covers the argument. -/
theorem onesCountAux_congr : ∀ (f g n : Nat), n ≤ f → n ≤ g →
    onesCountAux f n = onesCountAux g n := by
  intro f
  induction f with
  | zero =>
    intro g n hf _
    interval_cases n
    exact (onesCountAux_zero g).symm
  | succ f ih =>
    intro g n hf hg
    by_cases hn : n = 0
    · rw [hn, onesCountAux_zero, onesCountAux_zero]
    · have hg1 : g ≠ 0 := by omega
      obtain ⟨g0, rfl⟩ : ∃ g0, g = g0 + 1 := ⟨g - 1, by omega⟩
      simp only [onesCountAux, if_neg hn]
      have hh : n / 2 < n := Nat.div_lt_self (by omega) (by omega)
      rw [ih g0 (n / 2) (by omega) (by omega)]

/-- Recurrence for onesCount on nonzero arguments. -/
theorem onesCount_rec (n : Nat) (h : n ≠ 0) :
    onesCount n = n % 2 + onesCount (n / 2) := by
  obtain ⟨m, rfl⟩ : ∃ m, n = m + 1 := ⟨n - 1, by omega⟩
  unfold onesCount
  simp only [onesCountAux, if_neg h]
  have hh : (m + 1) / 2 < m + 1 := Nat.div_lt_self (by omega) (by omega)
  rw [onesCountAux_congr m ((m+1)/2) ((m+1)/2) (by omega) (by omega)]

/-- Only zero has no one bits. -/
theorem onesCount_eq_zero : ∀ n, onesCount n = 0 → n = 0 := by
  intro n
  induction n using Nat.strong_induction_on with
  | _ n ih =>
    intro h
    by_cases hn : n = 0
    · exact hn
    · rw [onesCount_rec n hn] at h
      have h2 : onesCount (n / 2) = 0 := by omega
      have := ih (n / 2) (Nat.div_lt_self (by omega) (by omega)) h2
      omega

/-- Powers of two have exactly one one bit. -/
theorem onesCount_two_pow : ∀ k, onesCount (2 ^ k) = 1 := by
  intro k
  induction k with
  | zero => rfl
  | succ j ih =>
    rw [onesCount_rec (2 ^ (j + 1)) (by positivity)]
    have h1 : 2 ^ (j + 1) = 2 * 2 ^ j := by ring
    rw [h1, Nat.mul_mod_right, Nat.mul_div_cancel_left _ (by omega)]
    omega

/-- A natural number has exactly one one bit iff it is a power of two. -/
theorem onesCount_eq_one_iff : ∀ n, onesCount n = 1 ↔ ∃ k, n = 2 ^ k := by
  intro n
  induction n using Nat.strong_induction_on with
  | _ n ih =>
    constructor
    · intro h
      have hn : n ≠ 0 := by
        intro h0
        rw [h0] at h
        simp [onesCount, onesCountAux] at h
      rw [onesCount_rec n hn] at h
      by_cases hpar : n % 2 = 0
      · have h2 : onesCount (n / 2) = 1 := by omega
        obtain ⟨k, hk⟩ := (ih (n / 2) (Nat.div_lt_self (by omega) (by omega))).mp h2
        refine ⟨k + 1, ?_⟩
        have : n = 2 * (n / 2) := by omega
        rw [this, hk]
        ring
      · have h2 : onesCount (n / 2) = 0 := by omega
        have h3 := onesCount_eq_zero _ h2
        refine ⟨0, ?_⟩
        omega
    · rintro ⟨k, rfl⟩
      exact onesCount_two_pow k

/-! ## Tree builder lemmas -/

/-- Halving a level halves its length. -/
theorem length_hashLevelPairs : ∀ xs : List Hash, (hashLevelPairs xs).length = xs.length / 2
  | [] => rfl
  | [_] => by simp [hashLevelPairs]
  | _ :: _ :: rest => by
    simp only [hashLevelPairs, List.length_cons, length_hashLevelPairs rest]
    omega

/-- Halving distributes over an append at an even boundary. -/
theorem hashLevelPairs_append : ∀ (xs ys : List Hash), xs.length % 2 = 0 →
    hashLevelPairs (xs ++ ys) = hashLevelPairs xs ++ hashLevelPairs ys
  | [], _, _ => rfl
  | [a], _, h => by simp at h
  | a :: b :: rest, ys, h => by
    have hr : rest.length % 2 = 0 := by
      simp only [List.length_cons] at h
      omega
    simp only [List.cons_append, hashLevelPairs, hashLevelPairs_append rest ys hr,
      List.append_eq]

/-- Entry j of a halved level is the pair hash of entries 2j and 2j+1. -/
theorem hashLevelPairs_getD : ∀ (ys : List Hash) (j : Nat), 2 * j + 1 < ys.length →
    (hashLevelPairs ys).getD j zeroHash
      = hashLevel (ys.getD (2 * j) zeroHash) (ys.getD (2 * j + 1) zeroHash)
  | [], j, h => by simp at h
  | [a], j, h => by
    simp only [List.length_cons, List.length_nil] at h
    omega
  | a :: b :: rest, 0, h => by simp [hashLevelPairs]
  | a :: b :: rest, j+1, h => by
    have hj : 2 * j + 1 < rest.length := by
      simp only [List.length_cons] at h
      omega
    have h2 : 2 * (j + 1) = 2 * j + 1 + 1 := by ring
    have h3 : 2 * (j + 1) + 1 = 2 * j + 1 + 1 + 1 := by ring
    simp only [hashLevelPairs, h2, h3, List.getD_cons_succ]
    exact hashLevelPairs_getD rest j hj

/-- Halving a constant level gives the constant self-pair level. -/
theorem hashLevelPairs_replicate (v : Hash) :
    ∀ n, hashLevelPairs (List.replicate (2 * n) v) = List.replicate n (hashLevel v v)
  | 0 => rfl
  | n+1 => by
    have h : 2 * (n + 1) = 2 * n + 1 + 1 := by ring
    rw [h, List.replicate_succ, List.replicate_succ]
    show hashLevelPairs (v :: v :: List.replicate (2 * n) v) = _
    simp only [hashLevelPairs, hashLevelPairs_replicate v n, List.replicate_succ]

/-- Iterated halving of a level. -/
def pairsIter : Nat → List Hash → List Hash
  | 0, xs => xs
  | k+1, xs => pairsIter k (hashLevelPairs xs)

/-- Length after k halvings. -/
theorem pairsIter_length : ∀ (k : Nat) (xs : List Hash),
    (pairsIter k xs).length = xs.length / 2 ^ k
  | 0, xs => by simp [pairsIter]
  | k+1, xs => by
    simp only [pairsIter, pairsIter_length k, length_hashLevelPairs]
    rw [Nat.div_div_eq_div_mul]
    congr 1
    ring

/-- Iterated halving distributes over an append at a 2^k boundary. -/
theorem pairsIter_append : ∀ (k : Nat) (xs ys : List Hash), 2 ^ k ∣ xs.length →
    pairsIter k (xs ++ ys) = pairsIter k xs ++ pairsIter k ys
  | 0, _, _, _ => rfl
  | k+1, xs, ys, h => by
    rcases h with ⟨m, hm⟩
    have hL : xs.length = 2 * (2 ^ k * m) := by
      rw [hm, pow_succ]
      ring
    have heven : xs.length % 2 = 0 := by
      rw [hL]
      exact Nat.mul_mod_right 2 _
    have hdvd : 2 ^ k ∣ (hashLevelPairs xs).length := by
      rw [length_hashLevelPairs, hL, Nat.mul_div_cancel_left _ (by omega : 0 < 2)]
      exact ⟨m, rfl⟩
    simp only [pairsIter, hashLevelPairs_append xs ys heven,
      pairsIter_append k (hashLevelPairs xs) (hashLevelPairs ys) hdvd]

/-- The grow loop keeps its level count when the fuel covers the height. -/
theorem buildLevelsAux_length : ∀ (k fuel : Nat) (xs : List Hash),
    xs.length = 2 ^ k → k ≤ fuel → (buildLevelsAux fuel xs).length = k + 1 := by
  intro k
  induction k with
  | zero =>
    intro fuel xs h _
    cases fuel with
    | zero => rfl
    | succ f => simp [buildLevelsAux, h]
  | succ j ih =>
    intro fuel xs h hk
    obtain ⟨f, rfl⟩ : ∃ f, fuel = f + 1 := ⟨fuel - 1, by omega⟩
    have hbig : ¬ xs.length ≤ 1 := by
      rw [h]
      have : 2 ^ (j + 1) ≥ 2 := by
        have := Nat.one_le_two_pow (n := j)
        rw [pow_succ]
        omega
      omega
    have hlp : (hashLevelPairs xs).length = 2 ^ j := by
      rw [length_hashLevelPairs, h, pow_succ, Nat.mul_div_cancel _ (by omega : 0 < 2)]
    simp only [buildLevelsAux, if_neg hbig, List.length_append, List.length_cons,
      List.length_nil, ih f (hashLevelPairs xs) hlp (by omega)]

/-- Level i of the grow loop result is the leaves halved k - i times. -/
theorem buildLevelsAux_getD : ∀ (k fuel : Nat) (xs : List Hash),
    xs.length = 2 ^ k → k ≤ fuel → ∀ i, i ≤ k →
    (buildLevelsAux fuel xs).getD i [] = pairsIter (k - i) xs := by
  intro k
  induction k with
  | zero =>
    intro fuel xs h _ i hi
    interval_cases i
    cases fuel with
    | zero => rfl
    | succ f => simp [buildLevelsAux, h, pairsIter]
  | succ j ih =>
    intro fuel xs h hk i hi
    obtain ⟨f, rfl⟩ : ∃ f, fuel = f + 1 := ⟨fuel - 1, by omega⟩
    have hbig : ¬ xs.length ≤ 1 := by
      rw [h]
      have := Nat.one_le_two_pow (n := j)
      rw [pow_succ]
      omega
    have hlp : (hashLevelPairs xs).length = 2 ^ j := by
      rw [length_hashLevelPairs, h, pow_succ, Nat.mul_div_cancel _ (by omega : 0 < 2)]
    have hlen : (buildLevelsAux f (hashLevelPairs xs)).length = j + 1 :=
      buildLevelsAux_length j f (hashLevelPairs xs) hlp (by omega)
    simp only [buildLevelsAux, if_neg hbig]
    by_cases hij : i ≤ j
    · rw [List.getD_append _ _ _ _ (by omega)]
      rw [ih f (hashLevelPairs xs) hlp (by omega) i hij]
      have hs : j + 1 - i = (j - i) + 1 := by omega
      rw [hs]
      rfl
    · have hieq : i = j + 1 := by omega
      subst hieq
      rw [List.getD_append_right _ _ _ _ (by omega), hlen]
      simp [pairsIter]

/-! ## Well-shaped trees -/

/-- Level widths of a well-shaped tree: level i (root-first) holds 2^i
digests. -/
def treeWidthsOK (T : MerkleTree) : Prop :=
  ∀ i, i < T.length → (T.getD i []).length = 2 ^ i

/-- The Merkle parent rule: each node equals hashLevel of its two children. -/
def treeParentsOK (T : MerkleTree) : Prop :=
  ∀ i, i + 1 < T.length → ∀ j, j < (T.getD i []).length →
    (T.getD i []).getD j zeroHash
      = hashLevel ((T.getD (i+1) []).getD (2*j) zeroHash)
          ((T.getD (i+1) []).getD (2*j+1) zeroHash)

/-- Every digest of the tree is 32 bytes. -/
def treeHashesOK (T : MerkleTree) : Prop :=
  ∀ L, L ∈ T → ∀ x, x ∈ L → x.length = 32

/-- buildLevels on 2^k leaves produces k+1 levels. -/
theorem buildLevels_length (k : Nat) (xs : List Hash) (h : xs.length = 2 ^ k) :
    (buildLevels xs).length = k + 1 :=
  buildLevelsAux_length k xs.length xs h (by rw [h]; exact le_of_lt (Nat.lt_two_pow k))

/-- Level i of buildLevels on 2^k leaves is the leaves halved k - i times. -/
theorem buildLevels_getD (k : Nat) (xs : List Hash) (h : xs.length = 2 ^ k)
    (i : Nat) (hi : i ≤ k) : (buildLevels xs).getD i [] = pairsIter (k - i) xs :=
  buildLevelsAux_getD k xs.length xs h (by rw [h]; exact le_of_lt (Nat.lt_two_pow k)) i hi

/-- Unfolding iterated halving from the outside. -/
theorem pairsIter_succ_outer : ∀ (m : Nat) (xs : List Hash),
    pairsIter (m + 1) xs = hashLevelPairs (pairsIter m xs)
  | 0, xs => rfl
  | m+1, xs => by
    show pairsIter (m + 1) (hashLevelPairs xs) = _
    rw [pairsIter_succ_outer m (hashLevelPairs xs)]
    rfl

/-- buildLevels produces the well-shaped widths. -/
theorem buildLevels_widthsOK (k : Nat) (xs : List Hash) (h : xs.length = 2 ^ k) :
    treeWidthsOK (buildLevels xs) := by
  intro i hi
  rw [buildLevels_length k xs h] at hi
  rw [buildLevels_getD k xs h i (by omega), pairsIter_length, h,
    Nat.pow_div (by omega) (by omega)]
  congr 1
  omega

/-- buildLevels satisfies the Merkle parent rule. -/
theorem buildLevels_parentsOK (k : Nat) (xs : List Hash) (h : xs.length = 2 ^ k) :
    treeParentsOK (buildLevels xs) := by
  intro i hip j hj
  rw [buildLevels_length k xs h] at hip
  rw [buildLevels_getD k xs h i (by omega)] at hj ⊢
  rw [buildLevels_getD k xs h (i+1) (by omega)]
  have hs : k - i = (k - (i + 1)) + 1 := by omega
  rw [hs, pairsIter_succ_outer]
  apply hashLevelPairs_getD
  rw [pairsIter_length, h, Nat.pow_div (by omega) (by omega)]
  rw [pairsIter_length, h, Nat.pow_div (by omega) (by omega)] at hj
  have h1 : k - (k - (i + 1)) = i + 1 := by omega
  have h2 : k - (k - i) = i := by omega
  rw [h1]
  rw [h2] at hj
  have : 2 ^ (i + 1) = 2 * 2 ^ i := by ring
  omega

/-- The elementwise parent rule and the level widths force the list-level
halving relation between adjacent levels. -/
theorem eq_hashLevelPairs_of_getD (xs ys : List Hash) (hlen : 2 * xs.length = ys.length)
    (h : ∀ j, j < xs.length →
      xs.getD j zeroHash = hashLevel (ys.getD (2*j) zeroHash) (ys.getD (2*j+1) zeroHash)) :
    xs = hashLevelPairs ys := by
  have hl : xs.length = (hashLevelPairs ys).length := by
    rw [length_hashLevelPairs]
    omega
  apply List.ext_getElem hl
  intro i h1 h2
  have hb : 2 * i + 1 < ys.length := by omega
  calc xs[i] = xs.getD i zeroHash := (List.getD_eq_getElem xs zeroHash h1).symm
    _ = hashLevel (ys.getD (2*i) zeroHash) (ys.getD (2*i+1) zeroHash) := h i h1
    _ = (hashLevelPairs ys).getD i zeroHash := (hashLevelPairs_getD ys i hb).symm
    _ = (hashLevelPairs ys)[i] := List.getD_eq_getElem _ zeroHash h2

/-- In a well-shaped tree, a higher level is the iterated halving of a lower
one. -/
theorem tree_level_iter (T : MerkleTree) (hw : treeWidthsOK T) (hp : treeParentsOK T) :
    ∀ (j i : Nat), i + j < T.length → T.getD i [] = pairsIter j (T.getD (i + j) []) := by
  intro j
  induction j with
  | zero =>
    intro i _
    rfl
  | succ m ih =>
    intro i hij
    have hstep : T.getD (i + m) [] = hashLevelPairs (T.getD (i + m + 1) []) := by
      apply eq_hashLevelPairs_of_getD
      · rw [hw (i + m) (by omega), hw (i + m + 1) (by omega)]
        ring
      · intro q hq
        have := hp (i + m) (by omega) q hq
        exact this
    have hm := ih i (by omega)
    show T.getD i [] = pairsIter m (hashLevelPairs (T.getD (i + (m + 1)) []))
    rw [show i + (m + 1) = i + m + 1 from by omega]
    rw [hm, hstep]

/-! ## readLeaves lemmas -/

/-- chunksOf always produces n chunks. -/
theorem chunksOf_length (sz : Nat) : ∀ (n : Nat) (s : List Nat), (chunksOf sz n s).length = n
  | 0, _ => rfl
  | n+1, s => by simp [chunksOf, chunksOf_length sz n]

/-- readLeaves succeeds on a long-enough stream and hashes the chunks. -/
theorem readLeaves_some : ∀ (n sz : Nat) (s : List Nat), n * sz ≤ s.length →
    readLeaves n sz s = some (List.map hashLeaf (chunksOf sz n s))
  | 0, _, _, _ => rfl
  | n+1, sz, s, h => by
    have h1 : (n + 1) * sz = n * sz + sz := by ring
    have hsz : ¬ s.length < sz := by omega
    have hdrop : n * sz ≤ (s.drop sz).length := by
      rw [List.length_drop]
      omega
    simp only [readLeaves, if_neg hsz, readLeaves_some n sz (s.drop sz) hdrop, chunksOf,
      List.map_cons]

/-- readLeaves fails on a short stream. -/
theorem readLeaves_none : ∀ (n sz : Nat) (s : List Nat), s.length < n * sz →
    readLeaves n sz s = none
  | 0, _, _, h => by simp at h
  | n+1, sz, s, h => by
    by_cases hsz : s.length < sz
    · simp [readLeaves, hsz]
    · have h1 : (n + 1) * sz = n * sz + sz := by ring
      have hrec : (s.drop sz).length < n * sz := by
        rw [List.length_drop]
        omega
      simp [readLeaves, hsz, readLeaves_none n sz (s.drop sz) hrec]

/-! ## All-zero content -/

/-- Shifting the start of the self-pairing chain. -/
theorem chainFrom_succ_shift (v : Hash) :
    ∀ n, chainFrom v (n + 1) = chainFrom (hashLevel v v) n
  | 0 => rfl
  | n+1 => by
    show hashLevel (chainFrom v (n + 1)) (chainFrom v (n + 1)) = _
    rw [chainFrom_succ_shift v n]
    rfl

/-- Iterated halving of a constant level collapses to the chain value. -/
theorem pairsIter_replicate_chain : ∀ (k : Nat) (v : Hash),
    pairsIter k (List.replicate (2 ^ k) v) = [chainFrom v k]
  | 0, v => rfl
  | k+1, v => by
    have h2 : (2 : Nat) ^ (k + 1) = 2 * 2 ^ k := by ring
    show pairsIter k (hashLevelPairs (List.replicate (2 ^ (k + 1)) v)) = _
    rw [h2, hashLevelPairs_replicate, pairsIter_replicate_chain k (hashLevel v v),
      chainFrom_succ_shift]

/-- Reading an all-zero stream produces the constant leaf level. -/
theorem readLeaves_zero_replicate (n : Nat) :
    readLeaves n 4096 (List.replicate (n * 4096) 0)
      = some (List.replicate n zero4kSectorHash) := by
  rw [readLeaves_some n 4096 _ (by rw [List.length_replicate]), chunksOf_replicate,
    List.map_replicate, hashLeaf_zero]

/-- Building a tree over an all-zero byte stream of 2^k subsectors succeeds and
its root is the k-th zero-chain digest. -/
theorem newTreeReader_zero_root (k : Nat) (hk : 2 ^ k ≤ 4294967295) :
    NewMerkleTreeFromReader (List.replicate (2 ^ k * 4096) 0) (2 ^ k) 4096
        = some (buildLevels (List.replicate (2 ^ k) zero4kSectorHash))
      ∧ MerkleTree.Root (buildLevels (List.replicate (2 ^ k) zero4kSectorHash))
        = zeroChain k := by
  constructor
  · unfold NewMerkleTreeFromReader newMerkleTreeFromHashedLeaves
    rw [if_neg (by omega : ¬ (4294967295 < 2 ^ k))]
    rw [readLeaves_zero_replicate (2 ^ k)]
    simp [onesCount_two_pow]
  · unfold MerkleTree.Root
    rw [buildLevels_getD k _ (List.length_replicate _ _) 0 (by omega), Nat.sub_zero,
      pairsIter_replicate_chain]
    rfl

/-- The fourth zero-chain digest is the EmptyBlobBaseHash constant. -/
theorem zeroChain_four : zeroChain 4 = EmptyBlobBaseHash := by decide

/-- The eighth zero-chain digest differs from the EmptyBlobBaseHash constant. -/
theorem zeroChain_eight_ne : zeroChain 8 ≠ EmptyBlobBaseHash := by decide

/-- The twelfth zero-chain digest is the EmptyBlobMerkleRoot constant. -/
theorem zeroChain_twelve : zeroChain 12 = EmptyBlobMerkleRoot := by decide

/-- Evaluate HashSectorWith through a successful tree construction. -/
theorem hashSectorWith_eq (n : Nat) (s : List Nat) (t : MerkleTree)
    (h : NewMerkleTreeFromReader s n SubsectorSize = some t) :
    HashSectorWith n s = MerkleTree.Root t := by
  unfold HashSectorWith
  rw [h]

/-- The spec-modelled HashSector (256 subsectors) of the all-zero sector is
the eighth zero-chain digest. -/
theorem hashSector256_zero : HashSector (List.replicate 1048576 0) = zeroChain 8 := by
  have h := newTreeReader_zero_root 8 (by norm_num)
  have e1 : (2:Nat) ^ 8 * 4096 = 1048576 := by norm_num
  have e2 : (2:Nat) ^ 8 = 256 := by norm_num
  rw [e1, e2] at h
  have hs : NewMerkleTreeFromReader (List.replicate 1048576 0) SubsectorCountSector
      SubsectorSize = some (buildLevels (List.replicate 256 zero4kSectorHash)) := by
    show NewMerkleTreeFromReader (List.replicate 1048576 0) 256 4096 = _
    exact h.1
  unfold HashSector
  rw [hashSectorWith_eq _ _ _ hs]
  exact h.2

/-! ## MerkleBase.Decode on zero streams -/

/-- The MerkleBase.Decode loop on an all-zero stream succeeds whenever every
iteration still finds at least one byte, i.e. the stream holds more than
32 * (k - 1) bytes; the reused buffer backfills a short final read. -/
theorem merkleBaseDecodeLoop_zero_bytes : ∀ (k m : Nat) (acc : List Hash),
    1 ≤ m → 32 * k ≤ m + 31 →
    merkleBaseDecodeLoop k zeroHash (List.replicate m 0) acc
      = some (acc.reverse ++ List.replicate k zeroHash) := by
  intro k
  induction k with
  | zero =>
    intro m acc _ _
    simp [merkleBaseDecodeLoop]
  | succ j ih =>
    intro m acc hm hk
    have hne : (List.replicate m (0 : Nat)).isEmpty = false := by
      cases m with
      | zero => omega
      | succ m0 => simp [List.replicate_succ]
    have hchunk : (List.replicate m (0 : Nat)).take 32 = List.replicate (min 32 m) 0 := by
      rw [List.take_replicate]
    have hrest : (List.replicate m (0 : Nat)).drop 32 = List.replicate (m - 32) 0 :=
      List.drop_replicate 0 32 m
    have hchlen : (List.replicate (min 32 m) (0 : Nat)).length = min 32 m :=
      List.length_replicate _ _
    have hbuf : List.replicate (min 32 m) (0 : Nat) ++ zeroHash.drop (min 32 m)
        = zeroHash := by
      unfold zeroHash
      rw [List.drop_replicate, ← List.replicate_add]
      congr 1
      omega
    simp only [merkleBaseDecodeLoop, byteReaderRead, hne, Bool.false_eq_true, if_false,
      hchunk, hrest, hchlen, hbuf]
    cases j with
    | zero =>
      simp [merkleBaseDecodeLoop]
    | succ j0 =>
      rw [ih (m - 32) (zeroHash :: acc) (by omega) (by omega)]
      simp [List.replicate_succ]

/-- The MerkleBase.Decode loop fails with io.EOF when the stream holds
exactly 32 * j bytes and more than j reads remain. -/
theorem merkleBaseDecodeLoop_exhaust : ∀ (j k : Nat) (acc : List Hash) (buf : List Nat),
    j < k → merkleBaseDecodeLoop k buf (List.replicate (32 * j) 0) acc = none := by
  intro j
  induction j with
  | zero =>
    intro k acc buf hk
    obtain ⟨k0, rfl⟩ : ∃ k0, k = k0 + 1 := ⟨k - 1, by omega⟩
    simp [merkleBaseDecodeLoop, byteReaderRead]
  | succ i ih =>
    intro k acc buf hk
    obtain ⟨k0, rfl⟩ : ∃ k0, k = k0 + 1 := ⟨k - 1, by omega⟩
    have hne : (List.replicate (32 * (i + 1)) (0 : Nat)).isEmpty = false := by
      have : 32 * (i + 1) = 32 * i + 32 := by ring
      rw [this, List.replicate_add]
      simp [List.replicate_succ]
    have hrest : (List.replicate (32 * (i + 1)) (0 : Nat)).drop 32
        = List.replicate (32 * i) 0 := by
      rw [List.drop_replicate]
      congr 1
    simp only [merkleBaseDecodeLoop, byteReaderRead, hne, Bool.false_eq_true, if_false,
      hrest]
    exact ih k0 _ _ (by omega)

/-! ## Claims -/

/-- Claim C1: the zero-content fast paths are transparent.  hashLeaf equals
Blake2b-256 on every input (the all-zero 4096-byte shortcut included);
hashLevel equals Blake2b-256 of the concatenation on every pair (the
precomputed equal-children lookup included); each of the 12 table entries
maps its key k to Blake2b-256 of k appended to k; and the table's first key
is the Blake2b-256 digest of 4096 zero bytes. -/
theorem hash_fast_paths_transparent :
    (∀ input : List Nat, hashLeaf input = blake2b256 input)
    ∧ (∀ left right : Hash, hashLevel left right = blake2b256 (left ++ right))
    ∧ precomputes.length = 12
    ∧ (precomputes.all (fun p => p.2 == blake2b256 (p.1 ++ p.1)) = true)
    ∧ (precomputes.headD (zeroHash, zeroHash)).1 = blake2b256 (List.replicate 4096 0) := by
  refine ⟨hashLeaf_blake, hashLevel_blake, by decide, precomputes_all_blake, ?_⟩
  rw [zero4k_blake]
  decide

/-- Claim C4 counterexample: hashing an all-zero sector made of 256 all-zero
subsectors (the sector shape the claim states) does not produce the
EmptyBlobBaseHash constant — that constant is the depth-4 zero-subtree root,
matching 16 subsectors per sector. -/
theorem zero_sector256_ne_baseHash :
    HashSector (List.replicate 1048576 0) ≠ EmptyBlobBaseHash := by
  rw [hashSector256_zero]
  exact zeroChain_eight_ne

/-- Claim C4 (amended): hashLeaf of the all-zero 4096-byte block equals
zero4kSectorHash; the sector hash of an all-zero 64 KiB sector (16
subsectors, the size the precompute constants encode) equals
EmptyBlobBaseHash; and the tree built over an all-zero 16 MiB blob (4096
subsectors) has root EmptyBlobMerkleRoot. -/
theorem zero_content_constants_actual :
    hashLeaf (List.replicate 4096 0) = zero4kSectorHash
    ∧ HashSectorWith 16 (List.replicate 65536 0) = EmptyBlobBaseHash
    ∧ (∃ t, MerkleizeWith 4096 (List.replicate 16777216 0) = some t
        ∧ MerkleTree.Root t = EmptyBlobMerkleRoot) := by
  refine ⟨hashLeaf_zero, ?_, ?_⟩
  · have h := newTreeReader_zero_root 4 (by norm_num)
    have e1 : (2:Nat) ^ 4 * 4096 = 65536 := by norm_num
    have e2 : (2:Nat) ^ 4 = 16 := by norm_num
    rw [e1, e2] at h
    rw [hashSectorWith_eq 16 _ _
      (show NewMerkleTreeFromReader (List.replicate 65536 0) 16 SubsectorSize = _ from h.1)]
    rw [h.2]
    exact zeroChain_four
  · have h := newTreeReader_zero_root 12 (by norm_num)
    have e1 : (2:Nat) ^ 12 * 4096 = 16777216 := by norm_num
    have e2 : (2:Nat) ^ 12 = 4096 := by norm_num
    rw [e1, e2] at h
    refine ⟨buildLevels (List.replicate 4096 zero4kSectorHash), ?_, ?_⟩
    · show NewMerkleTreeFromReader (List.replicate 16777216 0) 4096 SubsectorSize = _
      exact h.1
    · rw [h.2]
      exact zeroChain_twelve

/-- Claim C7 (code-bug evaluation): MerkleBase.Decode, fed by a greedy
bytes.Reader-style stream of 8191 zero bytes (one byte short of the 8192 the
wire format requires), returns success rather than an error; the stale-buffer
backfill makes the result the all-zero base.  Streams of at most 8160 bytes
do error, and the exact 8192-byte stream succeeds. -/
theorem baseDecode_truncated_succeeds :
    MerkleBase.Decode (List.replicate 8191 0) = some (List.replicate 256 zeroHash)
    ∧ MerkleBase.Decode (List.replicate 8160 0) = none
    ∧ MerkleBase.Decode (List.replicate 8192 0) = some (List.replicate 256 zeroHash) := by
  refine ⟨?_, ?_, ?_⟩
  · have h := merkleBaseDecodeLoop_zero_bytes 256 8191 [] (by omega) (by omega)
    rw [List.reverse_nil, List.nil_append] at h
    exact h
  · have h := merkleBaseDecodeLoop_exhaust 255 256 [] zeroHash (by omega)
    have e : (32:Nat) * 255 = 8160 := by norm_num
    rw [e] at h
    exact h
  · have h := merkleBaseDecodeLoop_zero_bytes 256 8192 [] (by omega) (by omega)
    rw [List.reverse_nil, List.nil_append] at h
    exact h

/-- Claim C10: MerkleTree.Decode performs no hash-consistency validation.
The well-shaped input of height 1 with three zero digests decodes
successfully, yet its level-0 entry is not hashLevel of its level-1 entries,
and Root returns that entry verbatim; the height byte alone is checked
(a height byte of 33 is rejected). -/
theorem tree_decode_no_validation :
    MerkleTree.Decode (1 :: List.replicate 96 0) = some ([[zeroHash], [zeroHash, zeroHash]], [])
    ∧ hashLevel zeroHash zeroHash ≠ zeroHash
    ∧ MerkleTree.Root [[zeroHash], [zeroHash, zeroHash]] = zeroHash
    ∧ MerkleTree.Decode (33 :: List.replicate 96 0) = none := by
  refine ⟨by decide, by decide, by decide, by decide⟩

/-- Climbing with the siblings collected by MakeSectorProofAux from level j
lands on the level-0 entry above the start position. -/
theorem verify_makeProof_climb (T : MerkleTree) (hw : treeWidthsOK T) (hp : treeParentsOK T) :
    ∀ (j pos : Nat), j < T.length → pos < 2 ^ j →
    VerifySectorProofAux ((T.getD j []).getD pos zeroHash) pos (MakeSectorProofAux T j pos) j
      = some ((T.getD 0 []).getD (pos / 2 ^ j) zeroHash) := by
  intro j
  induction j with
  | zero =>
    intro pos _ hpos
    interval_cases pos
    simp [VerifySectorProofAux, MakeSectorProofAux]
  | succ i ih =>
    intro pos hj hpos
    have h2 : (2:Nat) ^ (i+1) = 2 * 2 ^ i := by ring
    have hqb : pos / 2 < 2 ^ i := by omega
    have hpar := hp i (by omega) (pos / 2) (by rw [hw i (by omega)]; exact hqb)
    simp only [MakeSectorProofAux, VerifySectorProofAux]
    by_cases hpe : pos % 2 = 0
    · rw [if_pos hpe, if_pos hpe]
      have e1 : 2 * (pos / 2) = pos := by omega
      rw [e1] at hpar
      rw [← hpar, ih (pos / 2) (by omega) hqb]
      rw [Nat.div_div_eq_div_mul, ← h2]
    · rw [if_neg hpe, if_neg hpe]
      have e1 : 2 * (pos / 2) = pos - 1 := by omega
      rw [e1] at hpar
      rw [show pos - 1 + 1 = pos from by omega] at hpar
      rw [← hpar, ih (pos / 2) (by omega) hqb]
      rw [Nat.div_div_eq_div_mul, ← h2]

/-- Claim C2: sector-proof completeness.  For every sector byte sequence S,
position p in [0, 255] and well-formed tree T of height at least 8 (level i
holding 2^i digests, each parent hashLevel of its children) whose level-8
entry at p is HashSector S, verifying the proof made from T at p against
T's root succeeds. -/
theorem sector_proof_roundtrip (S : List Nat) (p : Nat) (T : MerkleTree)
    (hw : treeWidthsOK T) (hp : treeParentsOK T) (hlen : 9 ≤ T.length) (hpos : p < 256)
    (hsec : (T.getD 8 []).getD p zeroHash = HashSector S) :
    VerifySectorProof S p (MerkleTree.Root T) (MakeSectorProof T p) = true := by
  have h256 : (2:Nat) ^ 8 = 256 := by norm_num
  unfold VerifySectorProof MakeSectorProof MerkleTreeHeight SubsectorProofLevel
  rw [Nat.mod_eq_of_lt hpos, ← hsec]
  have h := verify_makeProof_climb T hw hp 8 p (by omega) (by omega)
  rw [h]
  show ((T.getD 0 []).getD (p / 2 ^ 8) zeroHash == MerkleTree.Root T) = true
  have hdiv : p / 2 ^ 8 = 0 := Nat.div_eq_of_lt (by omega)
  rw [hdiv]
  unfold MerkleTree.Root
  exact beq_self_eq_true _

/-- Claim C2 witness: the round trip holds at the all-zero sector, position
0, on the height-8 tree grown from 256 copies of that sector's hash. -/
theorem sector_proof_roundtrip_checked :
    VerifySectorProof (List.replicate 1048576 0) 0
      (MerkleTree.Root (buildLevels (List.replicate 256 (zeroChain 8))))
      (MakeSectorProof (buildLevels (List.replicate 256 (zeroChain 8))) 0) = true := by
  have hlen : (List.replicate 256 (zeroChain 8)).length = 2 ^ 8 := by
    rw [List.length_replicate]
    norm_num
  apply sector_proof_roundtrip
  · exact buildLevels_widthsOK 8 _ hlen
  · exact buildLevels_parentsOK 8 _ hlen
  · rw [buildLevels_length 8 _ hlen]
  · norm_num
  · rw [buildLevels_getD 8 _ hlen 8 (by omega), Nat.sub_self, hashSector256_zero]
    show (List.replicate 256 (zeroChain 8)).getD 0 zeroHash = zeroChain 8
    rw [List.getD_eq_getElem _ _ (by rw [List.length_replicate]; omega)]
    exact List.getElem_replicate _ _

/-- Claim C5: regrowing a tree from the extracted base reproduces the root.
For every well-formed tree of height at least 8, MakeTreeFromBase of its
ProtocolBase has the same root. -/
theorem base_regrow_root (T : MerkleTree) (hw : treeWidthsOK T) (hp : treeParentsOK T)
    (hlen : 9 ≤ T.length) :
    MerkleTree.Root (MakeTreeFromBase (MerkleTree.ProtocolBase T)) = MerkleTree.Root T := by
  have hbase : (MerkleTree.ProtocolBase T).length = 256 := by
    unfold MerkleTree.ProtocolBase MerkleTree.Level
    rw [hw 8 (by omega)]
    norm_num
  have h256 : (MerkleTree.ProtocolBase T).length = 2 ^ 8 := by
    rw [hbase]
    norm_num
  have hmk : MakeTreeFromBase (MerkleTree.ProtocolBase T)
      = buildLevels (MerkleTree.ProtocolBase T) := by
    unfold MakeTreeFromBase newMerkleTreeFromHashedLeaves
    rw [if_neg (by rw [hbase]; decide)]
  rw [hmk]
  unfold MerkleTree.Root
  rw [buildLevels_getD 8 _ h256 0 (by omega), Nat.sub_zero]
  have hiter := tree_level_iter T hw hp 8 0 (by omega)
  rw [show (0:Nat) + 8 = 8 from rfl] at hiter
  unfold MerkleTree.ProtocolBase MerkleTree.Level
  rw [← hiter]

/-- Claim C5 witness: the regrow round trip at the concrete height-8 tree
over 256 copies of the depth-8 zero-chain digest. -/
theorem base_regrow_root_checked :
    MerkleTree.Root (MakeTreeFromBase (MerkleTree.ProtocolBase
        (buildLevels (List.replicate 256 (zeroChain 8)))))
      = MerkleTree.Root (buildLevels (List.replicate 256 (zeroChain 8))) := by
  have hlen : (List.replicate 256 (zeroChain 8)).length = 2 ^ 8 := by
    rw [List.length_replicate]
    norm_num
  apply base_regrow_root
  · exact buildLevels_widthsOK 8 _ hlen
  · exact buildLevels_parentsOK 8 _ hlen
  · rw [buildLevels_length 8 _ hlen]

/-- NewMerkleTreeFromReader rejects a leaf count above the uint32 range. -/
theorem newTR_big (s : List Nat) (lc ls : Nat) (h : 4294967295 < lc) :
    NewMerkleTreeFromReader s lc ls = none := by
  unfold NewMerkleTreeFromReader
  rw [if_pos h]

/-- NewMerkleTreeFromReader rejects a leaf count that is not a power of two. -/
theorem newTR_notpow (s : List Nat) (lc ls : Nat) (h1 : ¬ 4294967295 < lc)
    (h2 : onesCount lc ≠ 1) : NewMerkleTreeFromReader s lc ls = none := by
  unfold NewMerkleTreeFromReader
  rw [if_neg h1, if_pos h2]

/-- NewMerkleTreeFromReader fails on a stream shorter than leafCount times
leafSize. -/
theorem newTR_short (s : List Nat) (lc ls : Nat) (h1 : ¬ 4294967295 < lc)
    (h2 : onesCount lc = 1) (h3 : s.length < lc * ls) :
    NewMerkleTreeFromReader s lc ls = none := by
  unfold NewMerkleTreeFromReader
  rw [if_neg h1, if_neg (show ¬ onesCount lc ≠ 1 from by omega),
    readLeaves_none _ _ _ h3]

/-- NewMerkleTreeFromReader on valid arguments builds the levels bottom-up
over the hashed chunks. -/
theorem newTR_ok (s : List Nat) (lc ls : Nat) (h1 : ¬ 4294967295 < lc)
    (h2 : onesCount lc = 1) (h3 : ¬ s.length < lc * ls) :
    NewMerkleTreeFromReader s lc ls
      = some (buildLevels (List.map hashLeaf (chunksOf ls lc s))) := by
  unfold NewMerkleTreeFromReader
  rw [if_neg h1, if_neg (show ¬ onesCount lc ≠ 1 from by omega),
    readLeaves_some _ _ _ (by omega)]
  show newMerkleTreeFromHashedLeaves (List.map hashLeaf (chunksOf ls lc s)) = _
  unfold newMerkleTreeFromHashedLeaves
  rw [if_neg (by rw [List.length_map, chunksOf_length]; omega)]

/-- Claim C8: NewMerkleTreeFromReader returns an error iff the leaf count is
not a power of two, or not representable in 32 unsigned bits, or the reader
supplies fewer than leafCount * leafSize bytes; otherwise it hashes exactly
the leafCount blocks of leafSize bytes with hashLeaf, builds the levels
bottom-up with hashLevel, and the tree has height log2 leafCount. -/
theorem newMerkleTreeFromReader_spec (s : List Nat) (lc ls : Nat) :
    (NewMerkleTreeFromReader s lc ls = none
      ↔ (¬ ∃ k, lc = 2 ^ k) ∨ 4294967295 < lc ∨ s.length < lc * ls)
    ∧ (∀ t, NewMerkleTreeFromReader s lc ls = some t →
        t = buildLevels (List.map hashLeaf (chunksOf ls lc s))
        ∧ MerkleTree.Height t = Nat.log2 lc) := by
  by_cases h1 : 4294967295 < lc
  · rw [newTR_big s lc ls h1]
    refine ⟨⟨fun _ => Or.inr (Or.inl h1), fun _ => rfl⟩, ?_⟩
    intro t ht
    simp at ht
  · by_cases h2 : onesCount lc = 1
    · by_cases h3 : s.length < lc * ls
      · rw [newTR_short s lc ls h1 h2 h3]
        refine ⟨⟨fun _ => Or.inr (Or.inr h3), fun _ => rfl⟩, ?_⟩
        intro t ht
        simp at ht
      · rw [newTR_ok s lc ls h1 h2 h3]
        obtain ⟨k, hk⟩ := (onesCount_eq_one_iff lc).mp h2
        have hlen : (List.map hashLeaf (chunksOf ls lc s)).length = 2 ^ k := by
          rw [List.length_map, chunksOf_length, hk]
        constructor
        · constructor
          · intro hn
            simp at hn
          · rintro (ha | hb | hc)
            · exact absurd ⟨k, hk⟩ ha
            · exact absurd hb h1
            · exact absurd hc h3
        · intro t ht
          have ht2 : t = buildLevels (List.map hashLeaf (chunksOf ls lc s)) := by
            injection ht with hh
            exact hh.symm
          refine ⟨ht2, ?_⟩
          unfold MerkleTree.Height
          rw [ht2, buildLevels_length k _ hlen, hk, Nat.log2_two_pow]
          omega
    · rw [newTR_notpow s lc ls h1 h2]
      refine ⟨⟨fun _ => ?_, fun _ => rfl⟩, ?_⟩
      · left
        rintro ⟨k, hk⟩
        exact h2 (hk ▸ onesCount_two_pow k)
      · intro t ht
        simp at ht

/-- Claim C8 witness: a stream of exactly 2 * 4096 bytes with the
power-of-two leaf count 2 is accepted. -/
theorem newMerkleTreeFromReader_spec_checked :
    NewMerkleTreeFromReader (List.replicate 8192 0) 2 4096 ≠ none := by
  intro hn
  rcases (newMerkleTreeFromReader_spec (List.replicate 8192 0) 2 4096).1.mp hn
    with ha | hb | hc
  · exact ha ⟨1, by norm_num⟩
  · omega
  · rw [List.length_replicate] at hc
    omega

/-- Claim C9: DiffWith returns exactly the strictly ascending positions in
[0, 255] where the two bases differ; it is empty iff the bases are equal,
and swapping the arguments returns the same positions. -/
theorem diffWith_spec (a b : List Hash) (ha : a.length = 256) (hb : b.length = 256) :
    (∀ i : Nat, i ∈ MerkleBase.DiffWith a b
      ↔ i < 256 ∧ a.getD i zeroHash ≠ b.getD i zeroHash)
    ∧ List.Pairwise (· < ·) (MerkleBase.DiffWith a b)
    ∧ (MerkleBase.DiffWith a b = [] ↔ a = b)
    ∧ MerkleBase.DiffWith a b = MerkleBase.DiffWith b a := by
  by_cases heq : a = b
  · subst heq
    have hd : MerkleBase.DiffWith a a = [] := by
      unfold MerkleBase.DiffWith
      rw [if_pos rfl]
    refine ⟨?_, ?_, ?_, rfl⟩
    · intro i
      rw [hd]
      simp
    · rw [hd]
      exact List.Pairwise.nil
    · rw [hd]
      simp
  · have hd : MerkleBase.DiffWith a b
        = (List.range 256).filter (fun i => !(a.getD i zeroHash == b.getD i zeroHash)) := by
      unfold MerkleBase.DiffWith
      rw [if_neg heq]
    have hd2 : MerkleBase.DiffWith b a
        = (List.range 256).filter (fun i => !(b.getD i zeroHash == a.getD i zeroHash)) := by
      unfold MerkleBase.DiffWith
      rw [if_neg (fun h => heq h.symm)]
    have hmem : ∀ i : Nat, i ∈ MerkleBase.DiffWith a b
        ↔ i < 256 ∧ a.getD i zeroHash ≠ b.getD i zeroHash := by
      intro i
      rw [hd, List.mem_filter, List.mem_range]
      constructor
      · rintro ⟨h1, h2⟩
        refine ⟨h1, ?_⟩
        intro he
        rw [he] at h2
        simp at h2
      · rintro ⟨h1, h2⟩
        refine ⟨h1, ?_⟩
        rw [Bool.not_eq_true']
        exact beq_eq_false_iff_ne.mpr h2
    refine ⟨hmem, ?_, ?_, ?_⟩
    · rw [hd]
      exact (List.pairwise_lt_range 256).filter _
    · constructor
      · intro hnil
        apply List.ext_getElem (by omega)
        intro i h1 h2
        by_contra hne
        have hiin : i ∈ MerkleBase.DiffWith a b := by
          apply (hmem i).mpr
          refine ⟨by omega, ?_⟩
          rw [List.getD_eq_getElem _ _ h1, List.getD_eq_getElem _ _ h2]
          exact hne
        rw [hnil] at hiin
        simp at hiin
      · intro hab
        exact absurd hab heq
    · rw [hd, hd2]
      apply List.filter_congr
      intro i _
      by_cases hxy : a.getD i zeroHash = b.getD i zeroHash
      · rw [hxy]
      · rw [beq_eq_false_iff_ne.mpr hxy, beq_eq_false_iff_ne.mpr (Ne.symm hxy)]

/-- Claim C9 witness: position 3 is reported for two concrete bases that
differ exactly there. -/
theorem diffWith_spec_checked :
    (3 : Nat) ∈ MerkleBase.DiffWith (List.replicate 256 zeroHash)
      ((List.replicate 256 zeroHash).set 3 zero4kSectorHash) := by
  apply ((diffWith_spec (List.replicate 256 zeroHash)
      ((List.replicate 256 zeroHash).set 3 zero4kSectorHash)
      (by rw [List.length_replicate])
      (by rw [List.length_set, List.length_replicate])).1 3).mpr
  refine ⟨by omega, by decide⟩

/-! ## Tree wire codec lemmas -/

/-- A level's digests are read back exactly from their 32-byte concatenation. -/
theorem readLevel_exact : ∀ (L : List Hash), (∀ x ∈ L, x.length = 32) →
    ∀ rest : List Nat, readLevel L.length (L.flatten ++ rest) = some (L, rest)
  | [], _, rest => by simp [readLevel]
  | x :: L2, h, rest => by
    have hx : x.length = 32 := h x (List.mem_cons_self x L2)
    have hL2 : ∀ y ∈ L2, y.length = 32 := fun y hy => h y (List.mem_cons_of_mem x hy)
    show readLevel (L2.length + 1) ((x ++ L2.flatten) ++ rest) = some (x :: L2, rest)
    rw [List.append_assoc]
    have hr : readHash (x ++ (L2.flatten ++ rest)) = some (x, L2.flatten ++ rest) := by
      unfold readHash
      rw [if_neg (by rw [List.length_append, hx]; omega)]
      rw [← hx, List.take_left, List.drop_left]
    simp only [readLevel, hr, readLevel_exact L2 hL2 rest]

/-- Decoding the leaf-first byte serialization of a well-shaped tree of
height H recovers exactly the levels. -/
theorem decodeLevels_encode : ∀ (H : Nat) (T : MerkleTree), T.length = H + 1 →
    (∀ i, i < T.length → (T.getD i []).length = 2 ^ i) → treeHashesOK T →
    decodeLevels H ((T.reverse.map (fun lv => lv.flatten)).flatten) = some (T, []) := by
  intro H
  induction H with
  | zero =>
    intro T hlen hw hh
    obtain ⟨L, rfl⟩ : ∃ L, T = [L] := by
      cases T with
      | nil => simp at hlen
      | cons L T2 =>
        cases T2 with
        | nil => exact ⟨L, rfl⟩
        | cons _ _ => simp at hlen
    have hL : L.length = 1 := by
      have := hw 0 (by simp)
      simpa using this
    have hhL : ∀ x ∈ L, x.length = 32 := hh L (List.mem_cons_self L [])
    have hread := readLevel_exact L hhL []
    rw [List.append_nil] at hread
    show decodeLevels 0 ([L].reverse.map (fun lv => lv.flatten)).flatten = some ([L], [])
    have hbytes : (([L] : MerkleTree).reverse.map (fun lv => lv.flatten)).flatten
        = L.flatten := by simp
    rw [hbytes]
    unfold decodeLevels
    rw [← hL, hread]
  | succ H0 ih =>
    intro T hlen hw hh
    have hTne : T ≠ [] := by
      intro h0
      rw [h0] at hlen
      simp at hlen
    have hsplit := List.dropLast_append_getLast hTne
    have hlenA : T.dropLast.length = H0 + 1 := by
      rw [List.length_dropLast, hlen]
      omega
    have hwA : ∀ i, i < T.dropLast.length → (T.dropLast.getD i []).length = 2 ^ i := by
      intro i hi
      have hiT : i < T.length := by
        rw [List.length_dropLast] at hi
        omega
      rw [List.getD_eq_getElem _ _ hi, List.getElem_dropLast,
        ← List.getD_eq_getElem T [] hiT]
      exact hw i hiT
    have hhA : treeHashesOK T.dropLast :=
      fun L hL x hx => hh L (List.Sublist.mem hL (List.dropLast_sublist T)) x hx
    have hlast : (T.getLast hTne).length = 2 ^ (H0 + 1) := by
      have hT1 : T.length - 1 < T.length := by
        rw [hlen]
        omega
      rw [List.getLast_eq_getElem, ← List.getD_eq_getElem T [] hT1]
      have := hw (T.length - 1) hT1
      rw [hlen] at this ⊢
      simpa using this
    have hhLast : ∀ x ∈ T.getLast hTne, x.length = 32 :=
      hh (T.getLast hTne) (List.getLast_mem hTne)
    have hbytes : (T.reverse.map (fun lv => lv.flatten)).flatten
        = (T.getLast hTne).flatten
          ++ (T.dropLast.reverse.map (fun lv => lv.flatten)).flatten := by
      conv =>
        left
        rw [← hsplit]
      rw [List.reverse_append]
      simp
    rw [hbytes]
    have hread := readLevel_exact (T.getLast hTne) hhLast
      ((T.dropLast.reverse.map (fun lv => lv.flatten)).flatten)
    rw [hlast] at hread
    simp only [decodeLevels, hread, ih T.dropLast hlenA hwA hhA, hsplit]

/-- The byte length of a level whose digests are all 32 bytes. -/
theorem flatten32_length : ∀ (L : List Hash), (∀ x ∈ L, x.length = 32) →
    L.flatten.length = 32 * L.length
  | [], _ => rfl
  | x :: L2, h => by
    rw [List.flatten_cons, List.length_append,
      flatten32_length L2 (fun y hy => h y (List.mem_cons_of_mem x hy)),
      h x (List.mem_cons_self x L2), List.length_cons]
    ring

/-- The byte length of the level-serialized tree with level widths growing
as powers of two from 2^e. -/
theorem bytesOf_length : ∀ (T : MerkleTree) (e : Nat),
    (∀ i, i < T.length → (T.getD i []).length = 2 ^ (e + i)) → treeHashesOK T →
    ((T.reverse.map (fun lv => lv.flatten)).flatten).length
      = 32 * (2 ^ (e + T.length) - 2 ^ e)
  | [], e, _, _ => by simp
  | L :: T2, e, hw, hh => by
    have hL : L.length = 2 ^ e := by
      have := hw 0 (by simp)
      simpa using this
    have hwT2 : ∀ i, i < T2.length → (T2.getD i []).length = 2 ^ (e + 1 + i) := by
      intro i hi
      have := hw (i + 1) (by simp only [List.length_cons]; omega)
      rw [List.getD_cons_succ] at this
      rw [show e + 1 + i = e + (i + 1) from by omega]
      exact this
    have hhT2 : treeHashesOK T2 :=
      fun M hM x hx => hh M (List.mem_cons_of_mem L hM) x hx
    rw [List.reverse_cons, List.map_append, List.flatten_append, List.length_append]
    simp only [List.map_cons, List.map_nil, List.flatten_cons, List.flatten_nil,
      List.append_nil]
    rw [flatten32_length L (hh L (List.mem_cons_self L T2)), hL,
      bytesOf_length T2 (e + 1) hwT2 hhT2]
    have he1 : e + 1 + T2.length = e + (L :: T2).length := by
      rw [List.length_cons]
      omega
    rw [he1]
    have hp1 : (2:Nat) ^ (e + 1) = 2 * 2 ^ e := by ring
    have hp2 : (2:Nat) ^ (e + 1) ≤ 2 ^ (e + (L :: T2).length) := by
      apply Nat.pow_le_pow_right (by omega)
      rw [List.length_cons]
      omega
    omega

/-- Claim C6: tree wire round trip.  Encoding a well-shaped tree of height
H at most 32 and decoding the result reproduces the identical levels with
nothing left over; the encoding is one height byte followed by
2^(H+1) - 1 digests of 32 bytes each, leaf level first. -/
theorem tree_encode_decode (T : MerkleTree) (H : Nat) (hlen : T.length = H + 1)
    (hH : H ≤ 32) (hw : ∀ i, i < T.length → (T.getD i []).length = 2 ^ i)
    (hh : treeHashesOK T) :
    MerkleTree.Decode (MerkleTree.Encode T) = some (T, [])
    ∧ (MerkleTree.Encode T).length = 1 + 32 * (2 ^ (H + 1) - 1)
    ∧ (MerkleTree.Encode T).headD 0 = H
    ∧ (MerkleTree.Encode T).drop 1 = (T.reverse.map (fun lv => lv.flatten)).flatten := by
  have hmod : (T.length - 1) % 256 = H := by
    rw [hlen]
    omega
  have henc : MerkleTree.Encode T
      = H :: (T.reverse.map (fun lv => lv.flatten)).flatten := by
    unfold MerkleTree.Encode
    rw [hmod]
  refine ⟨?_, ?_, ?_, ?_⟩
  · rw [henc]
    show (if 32 < H then none
      else decodeLevels H ((T.reverse.map (fun lv => lv.flatten)).flatten)) = some (T, [])
    rw [if_neg (by omega)]
    exact decodeLevels_encode H T hlen hw hh
  · rw [henc, List.length_cons,
      bytesOf_length T 0 (by intro i hi; rw [Nat.zero_add]; exact hw i hi) hh, hlen]
    simp only [Nat.zero_add, pow_zero]
    omega
  · rw [henc]
    rfl
  · rw [henc]
    rfl

/-- Claim C6 witness: the round trip at the concrete height-1 tree of three
zero digests. -/
theorem tree_encode_decode_checked :
    MerkleTree.Decode (MerkleTree.Encode [[zeroHash], [zeroHash, zeroHash]])
      = some ([[zeroHash], [zeroHash, zeroHash]], []) :=
  (tree_encode_decode [[zeroHash], [zeroHash, zeroHash]] 1 rfl (by omega)
    (by decide) (by unfold treeHashesOK; decide)).1

/-! ## Sector alignment with the base layer -/

/-- Chunking splits over an additive count. -/
theorem chunksOf_add (sz : Nat) : ∀ (a b : Nat) (s : List Nat),
    chunksOf sz (a + b) s = chunksOf sz a s ++ chunksOf sz b (s.drop (a * sz))
  | 0, b, s => by simp [chunksOf]
  | a+1, b, s => by
    have e : a + 1 + b = (a + b) + 1 := by omega
    rw [e]
    show s.take sz :: chunksOf sz (a + b) (s.drop sz)
      = (s.take sz :: chunksOf sz a (s.drop sz)) ++ chunksOf sz b (s.drop ((a + 1) * sz))
    rw [List.cons_append, chunksOf_add sz a b (s.drop sz), List.drop_drop]
    have e2 : sz + a * sz = (a + 1) * sz := by ring
    rw [e2]

/-- Chunking only looks at the first n * sz bytes. -/
theorem chunksOf_take (sz : Nat) : ∀ (n N : Nat) (s : List Nat), n * sz ≤ N →
    chunksOf sz n (s.take N) = chunksOf sz n s
  | 0, _, _, _ => rfl
  | n+1, N, s, h => by
    have h1 : (n + 1) * sz = n * sz + sz := by ring
    show (s.take N).take sz :: chunksOf sz n ((s.take N).drop sz)
      = s.take sz :: chunksOf sz n (s.drop sz)
    congr 1
    · rw [List.take_take]
      congr 1
      omega
    · rw [List.drop_take]
      exact chunksOf_take sz n (N - sz) (s.drop sz) (by omega)

/-- Entry p of the depth-8 halving of the full leaf level equals the head of
the depth-8 halving of the p-th 256-subsector group. -/
theorem pairsIter8_sector_getD : ∀ (p m : Nat) (B : List Nat), p < m →
    (pairsIter 8 (List.map hashLeaf (chunksOf 4096 (m * 256) B))).getD p zeroHash
      = (pairsIter 8 (List.map hashLeaf
          (chunksOf 4096 256 (B.drop (p * 1048576))))).getD 0 zeroHash := by
  intro p
  induction p with
  | zero =>
    intro m B hm
    obtain ⟨m0, rfl⟩ : ∃ m0, m = m0 + 1 := ⟨m - 1, by omega⟩
    have e : (m0 + 1) * 256 = 256 + m0 * 256 := by ring
    rw [e, chunksOf_add 4096 256 (m0 * 256) B, List.map_append]
    have hdvd : (2:Nat) ^ 8 ∣ (List.map hashLeaf (chunksOf 4096 256 B)).length := by
      rw [List.length_map, chunksOf_length]
      norm_num
    rw [pairsIter_append 8 _ _ hdvd]
    have hone : (pairsIter 8 (List.map hashLeaf (chunksOf 4096 256 B))).length = 1 := by
      rw [pairsIter_length, List.length_map, chunksOf_length]
      norm_num
    rw [List.getD_append _ _ _ _ (by omega)]
    rw [show (0:Nat) * 1048576 = 0 from by ring, List.drop_zero]
  | succ q ih =>
    intro m B hm
    obtain ⟨m0, rfl⟩ : ∃ m0, m = m0 + 1 := ⟨m - 1, by omega⟩
    have e : (m0 + 1) * 256 = 256 + m0 * 256 := by ring
    rw [e, chunksOf_add 4096 256 (m0 * 256) B, List.map_append]
    have hdvd : (2:Nat) ^ 8 ∣ (List.map hashLeaf (chunksOf 4096 256 B)).length := by
      rw [List.length_map, chunksOf_length]
      norm_num
    rw [pairsIter_append 8 _ _ hdvd]
    have hone : (pairsIter 8 (List.map hashLeaf (chunksOf 4096 256 B))).length = 1 := by
      rw [pairsIter_length, List.length_map, chunksOf_length]
      norm_num
    rw [List.getD_append_right _ _ _ _ (by omega), hone]
    have e256 : (256:Nat) * 4096 = 1048576 := by norm_num
    rw [Nat.add_sub_cancel, e256, ih m0 (B.drop 1048576) (by omega), List.drop_drop]
    have e3 : 1048576 + q * 1048576 = (q + 1) * 1048576 := by ring
    rw [e3]

/-- Claim C3: sector hash equals the base entry.  Under the spec's stated
alignment (sector byte length 4096 * 256, blob of 256 such sectors), for
every blob B and every position p below 256, HashSector of the p-th sector
of B equals entry p of the ProtocolBase of Merkleize B. -/
theorem hashSector_eq_protocolBase (B : List Nat) (hB : B.length = Size) (p : Nat)
    (hp : p < 256) :
    ∃ t, Merkleize B = some t
      ∧ HashSector ((B.drop (p * 1048576)).take 1048576)
        = (MerkleTree.ProtocolBase t).getD p zeroHash := by
  have hSize : Size = 268435456 := rfl
  have hok := newTR_ok B 65536 4096 (by norm_num)
    (by rw [show (65536:Nat) = 2 ^ 16 from by norm_num]; exact onesCount_two_pow 16)
    (by rw [hB, hSize]; norm_num)
  refine ⟨buildLevels (List.map hashLeaf (chunksOf 4096 65536 B)), ?_, ?_⟩
  · show NewMerkleTreeFromReader B 65536 4096 = _
    exact hok
  · have hSpLen : ((B.drop (p * 1048576)).take 1048576).length = 1048576 := by
      rw [List.length_take, List.length_drop, hB, hSize]
      omega
    have hsec := newTR_ok ((B.drop (p * 1048576)).take 1048576) 256 4096 (by norm_num)
      (by rw [show (256:Nat) = 2 ^ 8 from by norm_num]; exact onesCount_two_pow 8)
      (by rw [hSpLen]; norm_num)
    rw [show HashSector ((B.drop (p * 1048576)).take 1048576)
      = HashSectorWith SubsectorCountSector ((B.drop (p * 1048576)).take 1048576) from rfl]
    rw [hashSectorWith_eq _ _ _
      (show NewMerkleTreeFromReader ((B.drop (p * 1048576)).take 1048576)
        SubsectorCountSector SubsectorSize = _ from hsec)]
    unfold MerkleTree.Root MerkleTree.ProtocolBase MerkleTree.Level
    have hlenP : (List.map hashLeaf
        (chunksOf 4096 256 ((B.drop (p * 1048576)).take 1048576))).length = 2 ^ 8 := by
      rw [List.length_map, chunksOf_length]
      norm_num
    have hlenB : (List.map hashLeaf (chunksOf 4096 65536 B)).length = 2 ^ 16 := by
      rw [List.length_map, chunksOf_length]
      norm_num
    rw [buildLevels_getD 8 _ hlenP 0 (by omega), Nat.sub_zero]
    rw [buildLevels_getD 16 _ hlenB 8 (by omega)]
    rw [chunksOf_take 4096 256 1048576 _ (by norm_num)]
    have hm := pairsIter8_sector_getD p 256 B hp
    rw [show (256:Nat) * 256 = 65536 from by norm_num] at hm
    exact (show (16:Nat) - 8 = 8 from rfl) ▸ hm.symm

/-- Claim C3 witness: the alignment at the all-zero blob and position 0. -/
theorem hashSector_eq_protocolBase_checked :
    ∃ t, Merkleize (List.replicate 268435456 0) = some t
      ∧ HashSector (((List.replicate 268435456 0).drop (0 * 1048576)).take 1048576)
        = (MerkleTree.ProtocolBase t).getD 0 zeroHash :=
  hashSector_eq_protocolBase (List.replicate 268435456 0)
    (by rw [List.length_replicate]; rfl) 0 (by omega)
